import Mathlib

/-!
Verification of the `pll` repository (a bounded-parallelism `xargs`-like tool).

The repository holds two source files:

* `src/main.rs` — the binary: command-line surface, an inline copy of the
  argument-builder state machines (`AppendArgs`, `TemplateArgs`,
  `ArgBuilderType`, `DynArgBuilderMaker`), the process pool (`ProcPool`),
  the tokenizer (`SplitMany`) and the trimming step (`clean_arg`).
  `main.rs` declares no `mod args;`, so it is the code compiled into the
  program.
* `src/args.rs` — a standalone module with its own copy of the argument
  builders, extended with `min_args` / `viable()`, plus unit tests.

The two copies disagree in places, so both are embedded: namespace `Pll`
mirrors `src/main.rs`, namespace `ArgsRs` mirrors `src/args.rs`.

Strings pushed into builders are modelled as Lean `String`; template
elements are inspected through `String.data` (`{` and `}` are one-byte
UTF-8 sequences, so Rust's byte positions and character positions order
identically, and the decided conditions coincide). Raw input bytes for the
tokenizer are modelled as `Nat` (each in `0..256`; no arithmetic is done on
them). `usize` is modelled as `Nat`; the one subtraction the code performs
(`max_parallelism - 1`) is guarded explicitly, mirroring the debug-build
underflow panic.
-/

set_option autoImplicit false

/-- A slot of a template argument list: either a placeholder referencing an
input index, or an already-substituted value. Both `src/main.rs:81-84` and
`src/args.rs:41-44` define this enum identically. -/
inductive TemplateArg where
  | IndexedPlaceHolder (templ_idx : Nat)
  | Value (v : String)
  deriving DecidableEq, Repr

/-- Embeds Rust's `str::parse::<usize>()` as used on the text strictly
between the first brace pair of a template element: an optional leading
`+`, then one or more ASCII digits, no other characters, and the value must
fit in a 64-bit `usize` (overflow is a parse error). -/
def parseUsize (s : List Char) : Option Nat :=
  let digits := match s with
    | '+' :: rest => rest
    | _ => s
  if digits = [] then none
  else if digits.all (fun c => c.isDigit) then
    let v := digits.foldl (fun acc c => acc * 10 + (c.toNat - 48)) 0
    if v < 2 ^ 64 then some v else none
  else none

namespace Pll

/-- Embeds `AppendArgs` from `src/main.rs:42-46` (the copy compiled into
the binary; it has no `min_args` field). -/
structure AppendArgs where
  initial_args : List String
  args : List String
  max_args : Nat
  deriving DecidableEq, Repr

/-- Embeds `AppendArgs::finalized` (`src/main.rs:62-64`):
`self.args.len() >= self.max_args`. -/
def AppendArgs.finalized (b : AppendArgs) : Bool :=
  b.max_args ≤ b.args.length

/-- Embeds `AppendArgs::push_arg` (`src/main.rs:55-59`). The
`assert!(!self.finalized())` is modelled by returning `none` (an assertion
failure aborts the program). On success the new state and the returned
`finalized()` flag are produced. -/
def AppendArgs.push_arg (b : AppendArgs) (arg : String) : Option (AppendArgs × Bool) :=
  if b.finalized then none
  else
    let b' : AppendArgs := { b with args := b.args ++ [arg] }
    some (b', b'.finalized)

/-- Embeds `AppendArgs::arg_list` (`src/main.rs:66-72`):
`initial_args` followed by the collected `args`. -/
def AppendArgs.arg_list (b : AppendArgs) : List String :=
  b.initial_args ++ b.args

/-- Pushes a whole token sequence through `AppendArgs::push_arg`;
`none` as soon as any single push would trip the assertion. -/
def AppendArgs.pushAll (b : AppendArgs) : List String → Option AppendArgs
  | [] => some b
  | a :: rest =>
    match b.push_arg a with
    | none => none
    | some (b', _) => b'.pushAll rest

/-- Embeds `TemplateArgs` from `src/main.rs:75-79`: the slot list (the Rust
field is also called `arg_list`), the next input index `idx`, and the count
of filled slots `finalized_count`. -/
structure TemplateArgs where
  arg_list : List TemplateArg
  idx : Nat
  finalized_count : Nat
  deriving DecidableEq, Repr

/-- Embeds the per-element match of `TemplateArgs::new`
(`src/main.rs:119-133`): `val.find("{")` / `val.find("}")` give the
positions of the first braces; with both present, `j < i` or `j == i + 1`
or a parse failure of the text strictly between them falls back to the
element's own position `idx`. In this copy a brace-free element also
becomes `IndexedPlaceHolder(idx)`. -/
def templateSlot (idx : Nat) (val : String) : TemplateArg :=
  match val.data.findIdx? (fun c => decide (c = '{')), val.data.findIdx? (fun c => decide (c = '}')) with
  | none, none => .IndexedPlaceHolder idx
  | some _, none => .IndexedPlaceHolder idx
  | none, some _ => .IndexedPlaceHolder idx
  | some i, some j =>
    .IndexedPlaceHolder
      (if j < i ∨ j = i + 1 then idx
       else match parseUsize ((val.data.drop (i + 1)).take (j - (i + 1))) with
         | some templ_idx => templ_idx
         | none => idx)

/-- Embeds `TemplateArgs::new` (`src/main.rs:115-144`). The Rust function
returns `Result` but every path is `Ok`, so the model is total. -/
def TemplateArgs.new (templ : List String) : TemplateArgs :=
  let arg_list := templ.enum.map (fun p => templateSlot p.1 p.2)
  let finalized_count := arg_list.countP (fun a => match a with
    | .Value _ => true
    | _ => false)
  { arg_list := arg_list, idx := 0, finalized_count := finalized_count }

/-- Embeds `TemplateArgs::finalized` (`src/main.rs:172-174`):
`finalized_count == arg_list.len()`. -/
def TemplateArgs.finalized (t : TemplateArgs) : Bool :=
  t.finalized_count = t.arg_list.length

/-- Embeds the `for` loop of `TemplateArgs::push_arg`
(`src/main.rs:150-157`): every `IndexedPlaceHolder` slot whose index equals
`i` becomes `Value v`; the second component counts how many
`finalized_count += 1` increments the loop performed. -/
def fillSlots (i : Nat) (v : String) : List TemplateArg → List TemplateArg × Nat
  | [] => ([], 0)
  | a :: rest =>
    let (l, n) := fillSlots i v rest
    match a with
    | .IndexedPlaceHolder templ_idx =>
      if templ_idx = i then (TemplateArg.Value v :: l, n + 1)
      else (a :: l, n)
    | .Value _ => (a :: l, n)

/-- Embeds `TemplateArgs::push_arg` (`src/main.rs:148-160`). The
`assert!(!self.finalized())` is modelled by returning `none`. After the
fill loop, `idx` is incremented unconditionally and the new `finalized()`
is returned. -/
def TemplateArgs.push_arg (t : TemplateArgs) (arg : String) : Option (TemplateArgs × Bool) :=
  if t.finalized then none
  else
    let (l, n) := fillSlots t.idx arg t.arg_list
    let t' : TemplateArgs :=
      { arg_list := l, idx := t.idx + 1, finalized_count := t.finalized_count + n }
    some (t', t'.finalized)

/-- Embeds `TemplateArgs::arg_list()` (`src/main.rs:162-170`), the method
returning the current `Value` slots in template order (renamed here
because the slot field of the structure already carries the source's
name `arg_list`). -/
def TemplateArgs.arg_strings (t : TemplateArgs) : List String :=
  t.arg_list.filterMap (fun r => match r with
    | .Value v => some v
    | _ => none)

/-- Pushes a whole value sequence through `TemplateArgs::push_arg`;
`none` as soon as any single push would trip the assertion. -/
def TemplateArgs.pushAll (t : TemplateArgs) : List String → Option TemplateArgs
  | [] => some t
  | a :: rest =>
    match t.push_arg a with
    | none => none
    | some (t', _) => t'.pushAll rest

/-- Embeds the enum `ArgBuilderType` (`src/main.rs:86-89`). -/
inductive ArgBuilderType where
  | Template (t : TemplateArgs)
  | Append (a : AppendArgs)
  deriving DecidableEq, Repr

/-- Embeds the `ArgBuilder` impl dispatch for `push_arg`
(`src/main.rs:92-97`). -/
def ArgBuilderType.push_arg (b : ArgBuilderType) (arg : String) : Option (ArgBuilderType × Bool) :=
  match b with
  | .Append a =>
    match a.push_arg arg with
    | none => none
    | some (a', r) => some (.Append a', r)
  | .Template t =>
    match t.push_arg arg with
    | none => none
    | some (t', r) => some (.Template t', r)

/-- Embeds the `ArgBuilder` impl dispatch for `arg_list`
(`src/main.rs:99-104`). -/
def ArgBuilderType.arg_list (b : ArgBuilderType) : List String :=
  match b with
  | .Append a => a.arg_list
  | .Template t => t.arg_strings

/-- Embeds the `ArgBuilder` impl dispatch for `finalized`
(`src/main.rs:106-111`). -/
def ArgBuilderType.finalized (b : ArgBuilderType) : Bool :=
  match b with
  | .Append a => a.finalized
  | .Template t => t.finalized

/-- Embeds `DynArgBuilderMaker` (`src/main.rs:181-185`). -/
structure DynArgBuilderMaker where
  is_template : Bool
  initial_args : List String
  max_args : Nat
  deriving DecidableEq, Repr

/-- Embeds `DynArgBuilderMaker::make` (`src/main.rs:187-199`);
`TemplateArgs::new(..).unwrap()` never panics because `new` is total. -/
def DynArgBuilderMaker.make (m : DynArgBuilderMaker) : ArgBuilderType :=
  if m.is_template then .Template (TemplateArgs.new m.initial_args)
  else .Append { initial_args := m.initial_args, args := [], max_args := m.max_args }

/-- The failure modes of the pool model. `builderFinalized` stands for the
`assert!` at `src/main.rs:229` (or the builder's own assertion);
`parallelismUnderflow` for the `usize` underflow of
`self.max_parallelism - 1` at `src/main.rs:252` when `max_parallelism = 0`
(a panic in a debug build); `waitStarved` for a polling loop that never
reaches its threshold within the modelled number of scan rounds. -/
inductive PoolErr where
  | builderFinalized
  | parallelismUnderflow
  | waitStarved
  deriving DecidableEq, Repr

/-- Embeds `ProcPool` (`src/main.rs:201-208`). Running children are
modelled by the ids the pool assigned at spawn time (`procs`); `next_id`
is the model's spawn counter and `spawn_log` records, in order, the
argument vector passed to every `Command::spawn` call — the observable
trace of `src/main.rs:240-247`. -/
structure ProcPool where
  program : String
  max_parallelism : Nat
  proc_builder : ArgBuilderType
  proc_builder_fn : DynArgBuilderMaker
  procs : List Nat
  pipe_stdout : Bool
  next_id : Nat
  spawn_log : List (List String)
  deriving DecidableEq, Repr

/-- Embeds `ProcPool::new` (`src/main.rs:211-225`). -/
def ProcPool.new (program : String) (proc_builder_fn : DynArgBuilderMaker)
    (max_parallelism : Nat) (pipe_stdout : Bool) : ProcPool :=
  { program := program
    max_parallelism := max_parallelism
    proc_builder := proc_builder_fn.make
    proc_builder_fn := proc_builder_fn
    procs := []
    pipe_stdout := pipe_stdout
    next_id := 0
    spawn_log := [] }

/-- Embeds the polling loop `ProcPool::wait_until_len`
(`src/main.rs:259-288`). Each round, `retain_mut` keeps exactly the
children whose `try_wait()` returned `Ok(None)` (still running); an exited
child (`Ok(Some(_))`) and a poll error (`Err(_)`) are both dropped from
tracking. Whether child `id` is observed gone in scan round `r` is the
environment's choice, supplied as the oracle `exits r id`; `fuel` bounds
the number of scan rounds the model will run (the Rust loop sleeps and
retries forever, so exhausting `fuel` — `none` — corresponds to a run that
is still blocked, not to any state change). -/
def wait_until_len (exits : Nat → Nat → Bool) :
    Nat → Nat → Nat → List Nat → Option (List Nat)
  | 0, _, _, _ => none
  | fuel + 1, round, len, procs =>
    let procs' := procs.filter (fun id => !(exits round id))
    if procs'.length ≤ len then some procs'
    else wait_until_len exits fuel (round + 1) len procs'

/-- Embeds `ProcPool::wait_for_room` (`src/main.rs:251-253`):
`self.wait_until_len(self.max_parallelism - 1)`. The subtraction is on
`usize`; with `max_parallelism = 0` it underflows, which panics before any
reaping or spawning happens — modelled as the `parallelismUnderflow`
error. -/
def ProcPool.wait_for_room (exits : Nat → Nat → Bool) (fuel : Nat) (p : ProcPool) :
    Except PoolErr (List Nat) :=
  if p.max_parallelism = 0 then .error .parallelismUnderflow
  else
    match wait_until_len exits fuel 0 (p.max_parallelism - 1) p.procs with
    | none => .error .waitStarved
    | some procs' => .ok procs'

/-- Embeds `ProcPool::push_arg` (`src/main.rs:227-249`): assert the active
builder is not finalized, forward the token, return early if the builder
is still hungry; otherwise wait for room, spawn a child with the builder's
`arg_list()`, and replace the builder via the factory. -/
def ProcPool.push_arg (exits : Nat → Nat → Bool) (fuel : Nat) (p : ProcPool)
    (arg : String) : Except PoolErr ProcPool :=
  if p.proc_builder.finalized then .error .builderFinalized
  else
    match p.proc_builder.push_arg arg with
    | none => .error .builderFinalized
    | some (b, finalized) =>
      if finalized = false then .ok { p with proc_builder := b }
      else
        match p.wait_for_room exits fuel with
        | .error e => .error e
        | .ok procs' =>
          .ok { p with
            proc_builder := p.proc_builder_fn.make
            procs := procs' ++ [p.next_id]
            next_id := p.next_id + 1
            spawn_log := p.spawn_log ++ [b.arg_list] }

/-- Embeds `ProcPool::wait_all` (`src/main.rs:255-257`):
`self.wait_until_len(0)` and nothing else — in particular it neither
consults nor spawns the currently-assembling builder. -/
def ProcPool.wait_all (exits : Nat → Nat → Bool) (fuel : Nat) (p : ProcPool) :
    Except PoolErr ProcPool :=
  match wait_until_len exits fuel 0 0 p.procs with
  | none => .error .waitStarved
  | some procs' => .ok { p with procs := procs' }

/-- Feeds a token sequence to the pool, one `push_arg` per token, as the
main loop at `src/main.rs:389-394` does. -/
def ProcPool.runPushes (exits : Nat → Nat → Bool) (fuel : Nat) :
    ProcPool → List String → Except PoolErr ProcPool
  | p, [] => .ok p
  | p, a :: rest =>
    match p.push_arg exits fuel a with
    | .error e => .error e
    | .ok p' => p'.runPushes exits fuel rest

end Pll

namespace ArgsRs

/-- Embeds `AppendArgs` from `src/args.rs:1-6` (the module copy, which
additionally carries `min_args`). -/
structure AppendArgs where
  initial_args : List String
  args : List String
  max_args : Nat
  min_args : Nat
  deriving DecidableEq, Repr

/-- Embeds `AppendArgs::push_arg` (`src/args.rs:15-19`). Its assertion is
`assert!(self.args.len() <= self.max_args)` (checked before the push);
failure is modelled as `none`. Returns the new state and
`self.args.len() == self.max_args` evaluated after the push. -/
def AppendArgs.push_arg (b : AppendArgs) (arg : String) : Option (AppendArgs × Bool) :=
  if b.args.length ≤ b.max_args then
    let b' : AppendArgs := { b with args := b.args ++ [arg] }
    some (b', decide (b'.args.length = b.max_args))
  else none

/-- Embeds `AppendArgs::viable` (`src/args.rs:22-24`):
`self.args.len() >= self.min_args`. -/
def AppendArgs.viable (b : AppendArgs) : Bool :=
  b.min_args ≤ b.args.length

/-- Embeds `AppendArgs::arg_list` (`src/args.rs:26-32`). -/
def AppendArgs.arg_list (b : AppendArgs) : List String :=
  b.initial_args ++ b.args

/-- Pushes a whole token sequence through `AppendArgs::push_arg`;
`none` as soon as any single push would trip the assertion. -/
def AppendArgs.pushAll (b : AppendArgs) : List String → Option AppendArgs
  | [] => some b
  | a :: rest =>
    match b.push_arg a with
    | none => none
    | some (b', _) => b'.pushAll rest

/-- Embeds `TemplateArgs` from `src/args.rs:35-39` (same fields as the
`src/main.rs` copy). -/
structure TemplateArgs where
  arg_list : List TemplateArg
  idx : Nat
  finalized_count : Nat
  deriving DecidableEq, Repr

/-- Embeds the per-element match of `TemplateArgs::new`
(`src/args.rs:79-93`). Unlike the `src/main.rs` copy, a brace-free element
becomes `Value(val.clone())` — a pre-filled literal; every other branch is
identical to `Pll.templateSlot`. -/
def templateSlot (idx : Nat) (val : String) : TemplateArg :=
  match val.data.findIdx? (fun c => decide (c = '{')), val.data.findIdx? (fun c => decide (c = '}')) with
  | none, none => .Value val
  | some _, none => .IndexedPlaceHolder idx
  | none, some _ => .IndexedPlaceHolder idx
  | some i, some j =>
    .IndexedPlaceHolder
      (if j < i ∨ j = i + 1 then idx
       else match parseUsize ((val.data.drop (i + 1)).take (j - (i + 1))) with
         | some templ_idx => templ_idx
         | none => idx)

/-- Embeds `TemplateArgs::new` (`src/args.rs:75-104`); total because every
Rust path returns `Ok`. -/
def TemplateArgs.new (templ : List String) : TemplateArgs :=
  let arg_list := templ.enum.map (fun p => templateSlot p.1 p.2)
  let finalized_count := arg_list.countP (fun a => match a with
    | .Value _ => true
    | _ => false)
  { arg_list := arg_list, idx := 0, finalized_count := finalized_count }

/-- Embeds `TemplateArgs::viable` (`src/args.rs:131-133`):
`finalized_count == arg_list.len()` (this copy names the predicate
`viable`; it is the finalization test). -/
def TemplateArgs.viable (t : TemplateArgs) : Bool :=
  t.finalized_count = t.arg_list.length

/-- Embeds `TemplateArgs::push_arg` (`src/args.rs:108-119`); its fill loop
is character-for-character the one of `src/main.rs:150-157`, embedded once
as `Pll.fillSlots`. The `assert!(!self.viable())` is modelled by `none`. -/
def TemplateArgs.push_arg (t : TemplateArgs) (arg : String) : Option (TemplateArgs × Bool) :=
  if t.viable then none
  else
    let (l, n) := Pll.fillSlots t.idx arg t.arg_list
    let t' : TemplateArgs :=
      { arg_list := l, idx := t.idx + 1, finalized_count := t.finalized_count + n }
    some (t', t'.viable)

/-- Embeds `TemplateArgs::arg_list()` (`src/args.rs:121-129`), renamed for
the same field-name clash as in `Pll`. -/
def TemplateArgs.arg_strings (t : TemplateArgs) : List String :=
  t.arg_list.filterMap (fun r => match r with
    | .Value v => some v
    | _ => none)

/-- Pushes a whole value sequence through `TemplateArgs::push_arg`;
`none` as soon as any single push would trip the assertion. -/
def TemplateArgs.pushAll (t : TemplateArgs) : List String → Option TemplateArgs
  | [] => some t
  | a :: rest =>
    match t.push_arg a with
    | none => none
    | some (t', _) => t'.pushAll rest

end ArgsRs

namespace Pll

/-- Embeds `self.next.iter().position(|x| self.delims.contains(x))`
(`src/main.rs:306`): the index of the first byte of `l` that belongs to
the delimiter set `d`. -/
def findDelim (d : List Nat) : List Nat → Option Nat
  | [] => none
  | b :: rest =>
    if d.contains b then some 0
    else (findDelim d rest).map (fun k => k + 1)

theorem findDelim_lt_length (d : List Nat) :
    ∀ (l : List Nat) (pos : Nat), findDelim d l = some pos → pos < l.length := by
  intro l
  induction l with
  | nil => intro pos h; simp [findDelim] at h
  | cons b rest ih =>
    intro pos h
    cases hb : d.contains b with
    | true =>
      simp only [findDelim, hb, if_true] at h
      simp only [Option.some.injEq] at h
      subst h
      simp
    | false =>
      simp only [findDelim, hb, if_false] at h
      cases hfd : findDelim d rest with
      | none => rw [hfd] at h; simp at h
      | some k =>
        rw [hfd] at h
        simp at h
        have := ih k hfd
        simp only [List.length_cons]
        omega

/-- Embeds the token stream of `SplitMany::next` (`src/main.rs:304-326`)
for an input stream whose full contents are `input`: each step scans the
pending bytes for the first delimiter and drains through it
(`drain(0..pos + 1)`), yielding that run; at end of stream the leftover
bytes are yielded as one final run, or nothing when none remain. The
`fill_buf` plumbing only controls when bytes become visible, not the runs
produced, so the whole stream is scanned directly. -/
def splitMany (d : List Nat) (input : List Nat) : List (List Nat) :=
  match hf : findDelim d input with
  | some pos => input.take (pos + 1) :: splitMany d (input.drop (pos + 1))
  | none => if input.isEmpty then [] else [input]
termination_by input.length
decreasing_by
  have hlt := findDelim_lt_length d input pos hf
  simp only [List.length_drop]
  omega

/-- The same token stream computed by a single structural pass: `acc`
holds the bytes scanned since the last yielded run. Used as a
rewriting-friendly characterization of `splitMany`. -/
def splitManyAux (d : List Nat) (acc : List Nat) : List Nat → List (List Nat)
  | [] => if acc.isEmpty then [] else [acc]
  | b :: rest =>
    if d.contains b then (acc ++ [b]) :: splitManyAux d [] rest
    else splitManyAux d (acc ++ [b]) rest

/-- Embeds `clean_arg` (`src/main.rs:339-354`): find the first non-delimiter
position `start`; if none, the run is all delimiters and yields no token;
otherwise count the trailing delimiters through a reversed scan of
`arg[start..]` and slice `arg[start..arg.len() - end]`. The byte run is
returned as such; the UTF-8 decoding (`str::from_utf8(..).expect`) is the
identity on the byte content and is not modelled. -/
def clean_arg (delims : List Nat) (arg : List Nat) : Option (List Nat) :=
  match arg.findIdx? (fun x => !(delims.contains x)) with
  | none => none
  | some start =>
    match ((arg.drop start).reverse).findIdx? (fun x => !(delims.contains x)) with
    | none => none
    | some e => some ((arg.take (arg.length - e)).drop start)

end Pll

namespace Pll

theorem AppendArgs.push_arg_some {b b' : AppendArgs} {arg : String} {r : Bool}
    (h : b.push_arg arg = some (b', r)) :
    b.finalized = false ∧ b' = { b with args := b.args ++ [arg] } ∧ r = b'.finalized := by
  by_cases hf : b.finalized
  · simp [AppendArgs.push_arg, hf] at h
  · rw [AppendArgs.push_arg, if_neg hf] at h
    simp only [Option.some.injEq, Prod.mk.injEq] at h
    refine ⟨by simpa using hf, h.1.symm, ?_⟩
    rw [← h.1]
    exact h.2.symm

theorem AppendArgs.pushAll_some {b : AppendArgs} :
    ∀ {toks : List String} {b' : AppendArgs}, b.pushAll toks = some b' →
      b'.initial_args = b.initial_args ∧ b'.args = b.args ++ toks ∧
        b'.max_args = b.max_args := by
  intro toks
  induction toks generalizing b with
  | nil =>
    intro b' h
    simp only [AppendArgs.pushAll, Option.some.injEq] at h
    subst h
    simp
  | cons a rest ih =>
    intro b' h
    rw [AppendArgs.pushAll] at h
    cases hp : b.push_arg a with
    | none => rw [hp] at h; exact absurd h (by simp)
    | some p =>
      obtain ⟨b1, r1⟩ := p
      rw [hp] at h
      obtain ⟨hf, hb1, hr⟩ := AppendArgs.push_arg_some hp
      have := ih h
      rw [hb1] at this
      simp only at this
      refine ⟨this.1, ?_, this.2.2⟩
      rw [this.2.1]
      simp

end Pll

namespace ArgsRs

theorem AppendArgs.push_arg_step {b b' : AppendArgs} {arg : String} {r : Bool}
    (h : b.push_arg arg = some (b', r)) :
    b.args.length ≤ b.max_args ∧ b' = { b with args := b.args ++ [arg] } ∧
      r = decide (b.args.length + 1 = b.max_args) := by
  by_cases hf : b.args.length ≤ b.max_args
  · rw [AppendArgs.push_arg, if_pos hf] at h
    simp only [Option.some.injEq, Prod.mk.injEq] at h
    refine ⟨hf, h.1.symm, ?_⟩
    rw [← h.2]
    simp
  · simp [AppendArgs.push_arg, hf] at h

theorem AppendArgs.pushAll_steps {b : AppendArgs} :
    ∀ {toks : List String} {b' : AppendArgs}, b.pushAll toks = some b' →
      b'.initial_args = b.initial_args ∧ b'.args = b.args ++ toks ∧
        b'.max_args = b.max_args ∧ b'.min_args = b.min_args := by
  intro toks
  induction toks generalizing b with
  | nil =>
    intro b' h
    simp only [AppendArgs.pushAll, Option.some.injEq] at h
    subst h
    simp
  | cons a rest ih =>
    intro b' h
    rw [AppendArgs.pushAll] at h
    cases hp : b.push_arg a with
    | none => rw [hp] at h; exact absurd h (by simp)
    | some p =>
      obtain ⟨b1, r1⟩ := p
      rw [hp] at h
      obtain ⟨hf, hb1, hr⟩ := AppendArgs.push_arg_step hp
      have := ih h
      rw [hb1] at this
      simp only at this
      refine ⟨this.1, ?_, this.2.2⟩
      rw [this.2.1]
      simp

end ArgsRs

namespace Pll

theorem AppendArgs.pushAll_length_le {b : AppendArgs} :
    ∀ {toks : List String} {b' : AppendArgs}, b.pushAll toks = some b' → toks ≠ [] →
      b'.args.length ≤ b.max_args := by
  intro toks
  induction toks generalizing b with
  | nil => intro b' _ hne; exact absurd rfl hne
  | cons a rest ih =>
    intro b' h _
    rw [AppendArgs.pushAll] at h
    cases hp : b.push_arg a with
    | none => rw [hp] at h; exact absurd h (by simp)
    | some p =>
      obtain ⟨b1, r1⟩ := p
      rw [hp] at h
      obtain ⟨hf, hb1, _⟩ := AppendArgs.push_arg_some hp
      have hlt : b.args.length < b.max_args := by
        rw [AppendArgs.finalized] at hf
        simpa using hf
      cases rest with
      | nil =>
        simp only [AppendArgs.pushAll, Option.some.injEq] at h
        subst h
        rw [hb1]
        simp only [List.length_append, List.length_cons, List.length_nil]
        omega
      | cons c cs =>
        have := ih h (by simp)
        rw [hb1] at this
        simpa using this

end Pll

/-- C8: for the Append variant, after any sequence of accepted `push_arg`
calls and regardless of finalization state, `arg_list()` equals
`initial_args` concatenated with exactly the tokens pushed so far, in
arrival order. Proved for both copies of `AppendArgs`: the module one
(`src/args.rs:26-32`) and the one compiled into the binary
(`src/main.rs:66-72`). -/
theorem append_arg_list_roundtrip :
    (∀ (ia : List String) (mx mn : Nat) (toks : List String) (b : ArgsRs.AppendArgs),
      ArgsRs.AppendArgs.pushAll ⟨ia, [], mx, mn⟩ toks = some b →
      b.arg_list = ia ++ toks)
  ∧ (∀ (ia : List String) (mx : Nat) (toks : List String) (b : Pll.AppendArgs),
      Pll.AppendArgs.pushAll ⟨ia, [], mx⟩ toks = some b →
      b.arg_list = ia ++ toks) := by
  constructor
  · intro ia mx mn toks b h
    obtain ⟨h1, h2, _⟩ := ArgsRs.AppendArgs.pushAll_steps h
    rw [ArgsRs.AppendArgs.arg_list, h1, h2]
    simp
  · intro ia mx toks b h
    obtain ⟨h1, h2, _⟩ := Pll.AppendArgs.pushAll_some h
    rw [Pll.AppendArgs.arg_list, h1, h2]
    simp

/-- Witness for C8: a concrete accepted push run on each copy. -/
theorem append_arg_list_roundtrip_witness :
    (ArgsRs.AppendArgs.pushAll ⟨["i"], [], 2, 1⟩ ["a"] = some ⟨["i"], ["a"], 2, 1⟩
      ∧ (⟨["i"], ["a"], 2, 1⟩ : ArgsRs.AppendArgs).arg_list = ["i"] ++ ["a"])
  ∧ (Pll.AppendArgs.pushAll ⟨["i"], [], 2⟩ ["a"] = some ⟨["i"], ["a"], 2⟩
      ∧ (⟨["i"], ["a"], 2⟩ : Pll.AppendArgs).arg_list = ["i"] ++ ["a"]) :=
  ⟨⟨by decide, append_arg_list_roundtrip.1 ["i"] 2 1 ["a"] _ (by decide)⟩,
   ⟨by decide, append_arg_list_roundtrip.2 ["i"] 2 ["a"] _ (by decide)⟩⟩

/-- C9: `AppendArgs::push_arg` of the copy compiled into the binary
(`src/main.rs:55-59`) traps a push on an already-finalized builder via its
assertion; an accepted push grows `collected` by exactly one element and
keeps `collected.length <= max_args`; along any accepted push sequence
from a fresh builder the collected list stays within `max_args` and counts
exactly the accepted tokens. -/
theorem append_push_contract :
    (∀ (b : Pll.AppendArgs) (arg : String),
      b.finalized = true → b.push_arg arg = none)
  ∧ (∀ (b b' : Pll.AppendArgs) (arg : String) (r : Bool),
      b.push_arg arg = some (b', r) →
      b'.args.length = b.args.length + 1 ∧ b'.args.length ≤ b.max_args)
  ∧ (∀ (ia : List String) (mx : Nat) (toks : List String) (b' : Pll.AppendArgs),
      Pll.AppendArgs.pushAll ⟨ia, [], mx⟩ toks = some b' →
      b'.args.length = toks.length ∧ b'.args.length ≤ mx) := by
  refine ⟨?_, ?_, ?_⟩
  · intro b arg hf
    rw [Pll.AppendArgs.push_arg, if_pos (by simp [hf])]
  · intro b b' arg r h
    obtain ⟨hf, hb, _⟩ := Pll.AppendArgs.push_arg_some h
    have hlt : b.args.length < b.max_args := by
      rw [Pll.AppendArgs.finalized] at hf
      simpa using hf
    have hargs : b'.args = b.args ++ [arg] := by rw [hb]
    rw [hargs]
    simp only [List.length_append, List.length_cons, List.length_nil]
    exact ⟨trivial, by omega⟩
  · intro ia mx toks b' h
    obtain ⟨_, h2, _⟩ := Pll.AppendArgs.pushAll_some h
    simp only [List.nil_append] at h2
    refine ⟨by rw [h2], ?_⟩
    cases toks with
    | nil => rw [h2]; simp
    | cons a rest =>
      have := Pll.AppendArgs.pushAll_length_le h (by simp)
      simpa using this

/-- Witness for C9: the trap at a finalized builder and a concrete accepted
run. -/
theorem append_push_contract_witness :
    Pll.AppendArgs.push_arg ⟨[], ["x"], 1⟩ "y" = none
  ∧ ((⟨[], ["a"], 2⟩ : Pll.AppendArgs).args.length = ["a"].length
      ∧ (⟨[], ["a"], 2⟩ : Pll.AppendArgs).args.length ≤ 2) :=
  ⟨append_push_contract.1 ⟨[], ["x"], 1⟩ "y" (by decide),
   append_push_contract.2.2 [] 2 ["a"] ⟨[], ["a"], 2⟩ (by decide)⟩

namespace Pll

theorem fillSlots_fst (i : Nat) (v : String) :
    ∀ l : List TemplateArg,
      (fillSlots i v l).1 = l.map (fun a =>
        if a = TemplateArg.IndexedPlaceHolder i then TemplateArg.Value v else a) := by
  intro l
  induction l with
  | nil => rfl
  | cons a rest ih =>
    cases a with
    | IndexedPlaceHolder k =>
      by_cases hk : k = i
      · subst hk
        simp [fillSlots, ih]
      · simp [fillSlots, hk, ih]
    | Value w => simp [fillSlots, ih]

theorem fillSlots_snd (i : Nat) (v : String) :
    ∀ l : List TemplateArg,
      (fillSlots i v l).2 = l.countP (fun a =>
        decide (a = TemplateArg.IndexedPlaceHolder i)) := by
  intro l
  induction l with
  | nil => rfl
  | cons a rest ih =>
    cases a with
    | IndexedPlaceHolder k =>
      by_cases hk : k = i
      · subst hk
        simp [fillSlots, ih, List.countP_cons]
      · simp [fillSlots, hk, ih, List.countP_cons]
    | Value w => simp [fillSlots, ih, List.countP_cons]

end Pll

/-- C5: on a non-finalized Template builder (the copy compiled into the
binary, `src/main.rs:148-160`), `push_arg(value)` replaces every
`Placeholder` slot referencing the current `next_input_index` (`idx`) with
`Literal(value)`, increments `filled_count` once per replaced slot
(broadcast), increments `idx` unconditionally, and returns whether
`filled_count` now equals the number of slots. -/
theorem template_push_broadcast (t : Pll.TemplateArgs) (v : String)
    (h : t.finalized = false) :
    t.push_arg v =
      some (⟨t.arg_list.map (fun a =>
          if a = TemplateArg.IndexedPlaceHolder t.idx then TemplateArg.Value v else a),
        t.idx + 1,
        t.finalized_count + t.arg_list.countP (fun a =>
          decide (a = TemplateArg.IndexedPlaceHolder t.idx))⟩,
        decide (t.finalized_count + t.arg_list.countP (fun a =>
          decide (a = TemplateArg.IndexedPlaceHolder t.idx)) = t.arg_list.length)) := by
  rw [Pll.TemplateArgs.push_arg, if_neg (by simp [h])]
  have h1 := Pll.fillSlots_fst t.idx v t.arg_list
  have h2 := Pll.fillSlots_snd t.idx v t.arg_list
  cases hfs : Pll.fillSlots t.idx v t.arg_list with
  | mk l n =>
    rw [hfs] at h1 h2
    simp only at h1 h2
    subst h1
    subst h2
    simp only [Option.some.injEq, Prod.mk.injEq]
    refine ⟨trivial, ?_⟩
    rw [Pll.TemplateArgs.finalized]
    simp

/-- Witness for C5: a two-slot template whose slots both reference input
index `0`, filled by a single pushed value. -/
theorem template_push_broadcast_witness :
    (Pll.TemplateArgs.new ["{0}", "{0}"]).finalized = false
  ∧ (Pll.TemplateArgs.new ["{0}", "{0}"]).push_arg "w" =
      some (⟨(Pll.TemplateArgs.new ["{0}", "{0}"]).arg_list.map (fun a =>
          if a = TemplateArg.IndexedPlaceHolder (Pll.TemplateArgs.new ["{0}", "{0}"]).idx
          then TemplateArg.Value "w" else a),
        (Pll.TemplateArgs.new ["{0}", "{0}"]).idx + 1,
        (Pll.TemplateArgs.new ["{0}", "{0}"]).finalized_count +
          (Pll.TemplateArgs.new ["{0}", "{0}"]).arg_list.countP (fun a =>
            decide (a = TemplateArg.IndexedPlaceHolder (Pll.TemplateArgs.new ["{0}", "{0}"]).idx))⟩,
        decide ((Pll.TemplateArgs.new ["{0}", "{0}"]).finalized_count +
          (Pll.TemplateArgs.new ["{0}", "{0}"]).arg_list.countP (fun a =>
            decide (a = TemplateArg.IndexedPlaceHolder (Pll.TemplateArgs.new ["{0}", "{0}"]).idx)) =
          (Pll.TemplateArgs.new ["{0}", "{0}"]).arg_list.length)) :=
  ⟨by decide, template_push_broadcast (Pll.TemplateArgs.new ["{0}", "{0}"]) "w" (by decide)⟩

/-- C2 (divergence witness): on the template `["initial", "{0}", "{1}"]`
with pushed values `"foo"`, `"bar"`, the `TemplateArgs` copy compiled into
the binary (`src/main.rs:120`, which turns the brace-free element
`"initial"` into `IndexedPlaceHolder(0)`) produces the argument list
`["foo", "foo", "bar"]`, while the module copy (`src/args.rs:80`, which
pre-fills brace-free elements as literals) produces
`["initial", "foo", "bar"]` — the behaviour the claim, the spec and the
repository's own unit test `template_args_works` (`src/args.rs:191-198`)
describe. -/
theorem template_literal_divergence :
    ((Pll.TemplateArgs.new ["initial", "{0}", "{1}"]).pushAll ["foo", "bar"]).map
        Pll.TemplateArgs.arg_strings = some ["foo", "foo", "bar"]
  ∧ ((ArgsRs.TemplateArgs.new ["initial", "{0}", "{1}"]).pushAll ["foo", "bar"]).map
        ArgsRs.TemplateArgs.arg_strings = some ["initial", "foo", "bar"] := by
  decide

/-- C4: for a template element containing both `{` and `}`, with `i` the
position of the first `{` and `j` the position of the first `}`: when
`j < i`, or `j = i + 1`, or the text strictly between them fails to parse
as a `usize`, the slot becomes a placeholder referencing the element's own
template position, and otherwise it references the parsed integer; this
branch is identical in both copies (`src/main.rs:123-132`,
`src/args.rs:83-92`). Consequently the single-element template
`["a}{b"]` becomes a placeholder referencing input index `0` and one
pushed value fully finalizes it. -/
theorem template_brace_fallback :
    (∀ (val : String) (idx i j : Nat),
      val.data.findIdx? (fun c => decide (c = '{')) = some i →
      val.data.findIdx? (fun c => decide (c = '}')) = some j →
      (Pll.templateSlot idx val =
        TemplateArg.IndexedPlaceHolder
          (if j < i ∨ j = i + 1 ∨
              parseUsize ((val.data.drop (i + 1)).take (j - (i + 1))) = none
           then idx
           else (parseUsize ((val.data.drop (i + 1)).take (j - (i + 1)))).getD idx)
       ∧ ArgsRs.templateSlot idx val = Pll.templateSlot idx val))
  ∧ (Pll.TemplateArgs.new ["a\x7d\x7bb"]).arg_list = [TemplateArg.IndexedPlaceHolder 0]
  ∧ ((Pll.TemplateArgs.new ["a\x7d\x7bb"]).push_arg "v").map Prod.snd = some true := by
  refine ⟨?_, by decide, by decide⟩
  intro val idx i j hi hj
  simp only [Pll.templateSlot, ArgsRs.templateSlot, hi, hj]
  constructor
  · by_cases hij : j < i ∨ j = i + 1
    · rcases hij with h1 | h1 <;> simp [h1]
    · cases hp : parseUsize ((val.data.drop (i + 1)).take (j - (i + 1))) with
      | none => simp [hij, hp]
      | some k => simp [hij, hp]
  · trivial

/-- Witness for C4: the element `"x{2}y"` has its first `{` at position 1
and first `}` at position 3, and references the parsed index 2. -/
theorem template_brace_fallback_witness :
    Pll.templateSlot 7 "x{2}y" =
      TemplateArg.IndexedPlaceHolder
        (if 3 < 1 ∨ 3 = 1 + 1 ∨
            parseUsize (("x{2}y".data.drop (1 + 1)).take (3 - (1 + 1))) = none
         then 7
         else (parseUsize (("x{2}y".data.drop (1 + 1)).take (3 - (1 + 1)))).getD 7)
  ∧ ArgsRs.templateSlot 7 "x{2}y" = Pll.templateSlot 7 "x{2}y" :=
  template_brace_fallback.1 "x{2}y" 7 1 3 (by decide) (by decide)

namespace Pll

theorem wait_until_len_le (exits : Nat → Nat → Bool) :
    ∀ (fuel round len : Nat) (procs procs' : List Nat),
      wait_until_len exits fuel round len procs = some procs' → procs'.length ≤ len := by
  intro fuel
  induction fuel with
  | zero => intro round len procs procs' h; simp [wait_until_len] at h
  | succ n ih =>
    intro round len procs procs' h
    rw [wait_until_len] at h
    by_cases hle : (procs.filter (fun id => !(exits round id))).length ≤ len
    · rw [if_pos hle] at h
      simp only [Option.some.injEq] at h
      rw [← h]
      exact hle
    · rw [if_neg hle] at h
      exact ih (round + 1) len _ procs' h

theorem push_arg_procs_le (exits : Nat → Nat → Bool) (fuel : Nat) (N : Nat)
    (hN : 1 ≤ N) {p p' : ProcPool} {arg : String}
    (hmax : p.max_parallelism = N) (hlen : p.procs.length ≤ N)
    (h : p.push_arg exits fuel arg = .ok p') :
    p'.max_parallelism = N ∧ p'.procs.length ≤ N := by
  rw [ProcPool.push_arg] at h
  by_cases hf : p.proc_builder.finalized
  · rw [if_pos (by simp [hf])] at h
    exact absurd h (by simp)
  · rw [if_neg (by simpa using hf)] at h
    cases hp : p.proc_builder.push_arg arg with
    | none => rw [hp] at h; exact absurd h (by simp)
    | some q =>
      obtain ⟨b, fin⟩ := q
      rw [hp] at h
      simp only at h
      by_cases hfin : fin = false
      · rw [if_pos hfin] at h
        simp only [Except.ok.injEq] at h
        rw [← h]
        exact ⟨hmax, hlen⟩
      · rw [if_neg hfin] at h
        cases hw : p.wait_for_room exits fuel with
        | error e => rw [hw] at h; exact absurd h (by simp)
        | ok procs' =>
          rw [hw] at h
          simp only [Except.ok.injEq] at h
          rw [ProcPool.wait_for_room] at hw
          have hNz : ¬ p.max_parallelism = 0 := by omega
          rw [if_neg hNz] at hw
          cases hwl : wait_until_len exits fuel 0 (p.max_parallelism - 1) p.procs with
          | none => rw [hwl] at hw; exact absurd hw (by simp)
          | some procs₂ =>
            rw [hwl] at hw
            simp only [Except.ok.injEq] at hw
            have hle := wait_until_len_le exits fuel 0 (p.max_parallelism - 1) p.procs procs₂ hwl
            rw [← h]
            subst hw
            constructor
            · exact hmax
            · simp only [List.length_append, List.length_cons, List.length_nil]
              omega

theorem runPushes_procs_le (exits : Nat → Nat → Bool) (fuel : Nat) (N : Nat)
    (hN : 1 ≤ N) :
    ∀ (inputs : List String) (p p' : ProcPool),
      p.max_parallelism = N → p.procs.length ≤ N →
      p.runPushes exits fuel inputs = .ok p' →
      p'.max_parallelism = N ∧ p'.procs.length ≤ N := by
  intro inputs
  induction inputs with
  | nil =>
    intro p p' hmax hlen h
    simp only [ProcPool.runPushes, Except.ok.injEq] at h
    rw [← h]
    exact ⟨hmax, hlen⟩
  | cons a rest ih =>
    intro p p' hmax hlen h
    rw [ProcPool.runPushes] at h
    cases hp : p.push_arg exits fuel a with
    | error e => rw [hp] at h; exact absurd h (by simp)
    | ok p₁ =>
      rw [hp] at h
      obtain ⟨h1, h2⟩ := push_arg_procs_le exits fuel N hN hmax hlen hp
      exact ih p₁ p' h1 h2 h

end Pll

/-- C3: with configured `max_parallelism = N >= 1`, along any sequence of
`Pool.push_arg` calls (under any exit schedule of the children) the pool
never tracks more than `N` running children; moreover, the polling loop a
spawn must pass through (`wait_until_len` at threshold `N - 1`,
`src/main.rs:251-253, 259-288`) only returns once the tracked count is at
most `N - 1`. -/
theorem pool_capacity_invariant (exits : Nat → Nat → Bool) (fuel : Nat)
    (prog : String) (m : Pll.DynArgBuilderMaker) (pipe : Bool) (N : Nat)
    (hN : 1 ≤ N) (inputs : List String) (p' : Pll.ProcPool)
    (h : (Pll.ProcPool.new prog m N pipe).runPushes exits fuel inputs = .ok p') :
    p'.procs.length ≤ N
  ∧ (∀ (fuel' round : Nat) (procs procs' : List Nat),
      Pll.wait_until_len exits fuel' round (N - 1) procs = some procs' →
      procs'.length ≤ N - 1) := by
  constructor
  · exact (Pll.runPushes_procs_le exits fuel N hN inputs _ p' rfl (by simp [Pll.ProcPool.new]) h).2
  · intro fuel' round procs procs' hw
    exact Pll.wait_until_len_le exits fuel' round (N - 1) procs procs' hw

/-- Witness for C3: a concrete run at capacity `N = 1` — two finalizing
pushes, the second of which must first reap the child spawned by the
first. -/
theorem pool_capacity_invariant_witness :
    (Pll.ProcPool.new "p" ⟨false, [], 1⟩ 1 false).runPushes (fun _ _ => true) 2 ["a", "b"] =
      .ok { program := "p", max_parallelism := 1,
            proc_builder := .Append ⟨[], [], 1⟩, proc_builder_fn := ⟨false, [], 1⟩,
            procs := [1], pipe_stdout := false, next_id := 2,
            spawn_log := [["a"], ["b"]] }
  ∧ ([1] : List Nat).length ≤ 1 := by
  refine ⟨by rfl, ?_⟩
  have h := pool_capacity_invariant (fun _ _ => true) 2 "p" ⟨false, [], 1⟩ false 1
    (by decide) ["a", "b"]
    { program := "p", max_parallelism := 1,
      proc_builder := .Append ⟨[], [], 1⟩, proc_builder_fn := ⟨false, [], 1⟩,
      procs := [1], pipe_stdout := false, next_id := 2,
      spawn_log := [["a"], ["b"]] } (by rfl)
  exact h.1

/-- C10: nothing validates `max_parallelism >= 1` (`src/main.rs:356-396`
passes the parsed value straight to `ProcPool::new`, and the clap surface
at `src/main.rs:21-22` is a bare `usize`); with `max_parallelism = 0`, the
first finalizing push reaches `wait_for_room`'s `self.max_parallelism - 1`
(`src/main.rs:252`), whose `usize` underflow panics before any process is
spawned. The second conjunct runs the concrete scenario: a fresh pool with
the default `num_args = 1` and `max_parallelism = 0` panics on its very
first token. -/
theorem max_parallelism_zero_underflow (exits : Nat → Nat → Bool) (fuel : Nat)
    (p : Pll.ProcPool) (arg : String) (b : Pll.ArgBuilderType)
    (h0 : p.max_parallelism = 0)
    (hnf : p.proc_builder.finalized = false)
    (hpush : p.proc_builder.push_arg arg = some (b, true)) :
    p.push_arg exits fuel arg = .error .parallelismUnderflow
  ∧ (Pll.ProcPool.new "prog" ⟨false, [], 1⟩ 0 false).push_arg exits fuel "x" =
      .error .parallelismUnderflow := by
  constructor
  · rw [Pll.ProcPool.push_arg, if_neg (by simp [hnf]), hpush]
    simp only
    rw [if_neg (by simp)]
    rw [Pll.ProcPool.wait_for_room, if_pos h0]
  · rfl

/-- Witness for C10: the concrete zero-capacity pool. -/
theorem max_parallelism_zero_underflow_witness :
    (Pll.ProcPool.new "prog" ⟨false, [], 1⟩ 0 false).push_arg (fun _ _ => false) 3 "x" =
      .error .parallelismUnderflow :=
  (max_parallelism_zero_underflow (fun _ _ => false) 3
    (Pll.ProcPool.new "prog" ⟨false, [], 1⟩ 0 false) "x"
    (.Append ⟨[], ["x"], 1⟩) rfl rfl rfl).1

/-- The spec's Append-finalization scenario run against the pool that is
actually in the binary: `max_args = 2`, tokens `"a"`, `"b"`, `"c"` pushed,
then `wait_all`; every child is reaped at the first poll. -/
def c1run : Except Pll.PoolErr Pll.ProcPool :=
  match (Pll.ProcPool.new "prog" ⟨false, [], 2⟩ 4 false).runPushes
      (fun _ _ => true) 1 ["a", "b", "c"] with
  | .error e => .error e
  | .ok p => p.wait_all (fun _ _ => true) 1

/-- The pool state `c1run` ends in. -/
def c1post : Pll.ProcPool :=
  { program := "prog", max_parallelism := 4,
    proc_builder := .Append ⟨[], ["c"], 2⟩, proc_builder_fn := ⟨false, [], 2⟩,
    procs := [], pipe_stdout := false, next_id := 1, spawn_log := [["a", "b"]] }

/-- C1 counterexample: with `max_args = 2`, pushing `"a"`, `"b"`, `"c"`
and then calling `wait_all` leaves the spawn log at exactly
`[["a", "b"]]` — the token `"c"` is still sitting in the assembling
builder and no spawn with arguments `["c"]` ever happens, because
`ProcPool::wait_all` (`src/main.rs:255-257`) is just
`self.wait_until_len(0)` and never force-spawns the builder. -/
theorem wait_all_no_flush_cex :
    c1run = .ok c1post ∧ c1post.spawn_log = [["a", "b"]]
  ∧ c1post.proc_builder = .Append ⟨[], ["c"], 2⟩
  ∧ ["c"] ∉ c1post.spawn_log :=
  ⟨rfl, rfl, rfl, by decide⟩

/-- C1 amended: `wait_all` only blocks until every tracked child has been
reaped; it performs no spawn and does not touch the currently-assembling
builder (there is no force-spawn of a viable builder — `min_args` /
`viable()` exist only in the dead module copy `src/args.rs` and the pool
never consults them). Consequently, for `max_args = 2`, pushing `"a"`,
`"b"`, `"c"` causes exactly one spawn, with arguments `["a", "b"]`, after
`"b"` is pushed, and no further spawn happens at `wait_all`. -/
theorem wait_all_no_flush (exits : Nat → Nat → Bool) (fuel : Nat)
    (p p' : Pll.ProcPool) (h : p.wait_all exits fuel = .ok p') :
    (p'.spawn_log = p.spawn_log ∧ p'.proc_builder = p.proc_builder
      ∧ p'.next_id = p.next_id ∧ p'.procs = [])
  ∧ c1run = .ok c1post ∧ c1post.spawn_log = [["a", "b"]] := by
  refine ⟨?_, rfl, rfl⟩
  rw [Pll.ProcPool.wait_all] at h
  cases hw : Pll.wait_until_len exits fuel 0 0 p.procs with
  | none => rw [hw] at h; exact absurd h (by simp)
  | some procs' =>
    rw [hw] at h
    simp only [Except.ok.injEq] at h
    have hle := Pll.wait_until_len_le exits fuel 0 0 p.procs procs' hw
    have hnil : procs' = [] := List.length_eq_zero.mp (Nat.le_zero.mp hle)
    rw [← h, hnil]
    exact ⟨rfl, rfl, rfl, rfl⟩

/-- Witness for C1's amended theorem at a concrete pool with one running
child. -/
theorem wait_all_no_flush_witness :
    (Pll.ProcPool.wait_all (fun _ _ => true) 1
        { program := "prog", max_parallelism := 4,
          proc_builder := .Append ⟨[], ["c"], 2⟩, proc_builder_fn := ⟨false, [], 2⟩,
          procs := [0], pipe_stdout := false, next_id := 1,
          spawn_log := [["a", "b"]] } =
      .ok c1post)
  ∧ c1post.spawn_log = [["a", "b"]] ∧ c1post.procs = [] :=
  ⟨rfl,
   (wait_all_no_flush (fun _ _ => true) 1
      { program := "prog", max_parallelism := 4,
        proc_builder := .Append ⟨[], ["c"], 2⟩, proc_builder_fn := ⟨false, [], 2⟩,
        procs := [0], pipe_stdout := false, next_id := 1,
        spawn_log := [["a", "b"]] } c1post rfl).2.2,
   (wait_all_no_flush (fun _ _ => true) 1
      { program := "prog", max_parallelism := 4,
        proc_builder := .Append ⟨[], ["c"], 2⟩, proc_builder_fn := ⟨false, [], 2⟩,
        procs := [0], pipe_stdout := false, next_id := 1,
        spawn_log := [["a", "b"]] } c1post rfl).1.2.2.2⟩

namespace Pll

theorem findDelim_none (d : List Nat) :
    ∀ l : List Nat, findDelim d l = none → ∀ x ∈ l, d.contains x = false := by
  intro l
  induction l with
  | nil => intro _ x hx; simp at hx
  | cons b rest ih =>
    intro h x hx
    cases hb : d.contains b with
    | true =>
      simp only [findDelim, hb, if_true] at h
      simp at h
    | false =>
      simp only [findDelim, hb, if_false] at h
      cases hfd : findDelim d rest with
      | some k => rw [hfd] at h; simp at h
      | none =>
        rcases List.mem_cons.mp hx with rfl | hx'
        · exact hb
        · exact ih hfd x hx'

theorem findDelim_decomp (d : List Nat) :
    ∀ (l : List Nat) (pos : Nat), findDelim d l = some pos →
      ∃ pre b post, l = pre ++ b :: post ∧ pre.length = pos ∧
        d.contains b = true ∧ ∀ x ∈ pre, d.contains x = false := by
  intro l
  induction l with
  | nil => intro pos h; simp [findDelim] at h
  | cons b rest ih =>
    intro pos h
    cases hb : d.contains b with
    | true =>
      simp only [findDelim, hb, if_true, Option.some.injEq] at h
      exact ⟨[], b, rest, by simp, by simpa using h, hb, by simp⟩
    | false =>
      simp only [findDelim, hb, if_false] at h
      cases hfd : findDelim d rest with
      | none => rw [hfd] at h; simp at h
      | some k =>
        rw [hfd] at h
        simp at h
        obtain ⟨pre, c, post, hrest, hlen, hc, hpre⟩ := ih k hfd
        refine ⟨b :: pre, c, post, by rw [hrest]; simp, by simp [hlen, ← h], hc, ?_⟩
        intro x hx
        rcases List.mem_cons.mp hx with rfl | hx'
        · exact hb
        · exact hpre x hx'

theorem splitMany_some {d input : List Nat} {pos : Nat}
    (hf : findDelim d input = some pos) :
    splitMany d input = input.take (pos + 1) :: splitMany d (input.drop (pos + 1)) := by
  rw [splitMany]
  split
  next p hp =>
    rw [hf] at hp
    cases hp
    rfl
  next hp => rw [hf] at hp; cases hp

theorem splitMany_none {d input : List Nat} (hf : findDelim d input = none) :
    splitMany d input = if input.isEmpty then [] else [input] := by
  rw [splitMany]
  split
  next p hp => rw [hf] at hp; cases hp
  next hp => rfl

theorem splitManyAux_no_delim (d : List Nat) :
    ∀ (l acc : List Nat), (∀ x ∈ l, d.contains x = false) →
      splitManyAux d acc l = if (acc ++ l).isEmpty then [] else [acc ++ l] := by
  intro l
  induction l with
  | nil => intro acc _; simp [splitManyAux]
  | cons b rest ih =>
    intro acc hl
    have hb : d.contains b = false := hl b (by simp)
    rw [splitManyAux, if_neg (by simpa using hb)]
    rw [ih (acc ++ [b]) (fun x hx => hl x (by simp [hx]))]
    simp

theorem splitManyAux_through_delim (d : List Nat) :
    ∀ (pre acc post : List Nat) (b : Nat),
      (∀ x ∈ pre, d.contains x = false) → d.contains b = true →
      splitManyAux d acc (pre ++ b :: post) =
        (acc ++ pre ++ [b]) :: splitManyAux d [] post := by
  intro pre
  induction pre with
  | nil =>
    intro acc post b _ hb
    rw [List.nil_append, splitManyAux, if_pos (by simpa using hb)]
    simp
  | cons c cs ih =>
    intro acc post b hpre hb
    have hc : d.contains c = false := hpre c (by simp)
    rw [List.cons_append, splitManyAux, if_neg (by simpa using hc)]
    rw [ih (acc ++ [c]) post b (fun x hx => hpre x (by simp [hx])) hb]
    simp

theorem splitMany_eq_aux (d : List Nat) :
    ∀ input : List Nat, splitMany d input = splitManyAux d [] input := by
  intro input
  induction input using splitMany.induct d with
  | case1 input pos hf ih =>
    obtain ⟨pre, b, post, hin, hlen, hb, hpre⟩ := findDelim_decomp d input pos hf
    rw [splitMany_some hf, ih]
    subst hin
    subst hlen
    rw [splitManyAux_through_delim d pre [] post b hpre hb]
    congr 1
    · rw [List.take_append_eq_append_take, List.take_of_length_le (by simp)]
      simp
    · rw [List.drop_append_eq_append_drop, List.drop_eq_nil_of_le (by simp)]
      simp
  | case2 input hf hemp =>
    rw [splitMany_none hf, if_pos hemp]
    have : input = [] := by simpa using hemp
    subst this
    rfl
  | case3 input hf hemp =>
    rw [splitMany_none hf, if_neg hemp]
    rw [splitManyAux_no_delim d input [] (findDelim_none d input hf)]
    simp only [List.nil_append]
    rw [if_neg hemp]

end Pll

namespace Pll

theorem splitManyAux_flatten (d : List Nat) :
    ∀ (l acc : List Nat), (splitManyAux d acc l).flatten = acc ++ l := by
  intro l
  induction l with
  | nil =>
    intro acc
    rw [splitManyAux]
    cases hacc : acc with
    | nil => simp
    | cons a as => simp
  | cons b rest ih =>
    intro acc
    rw [splitManyAux]
    by_cases hb : d.contains b = true
    · rw [if_pos (by simpa using hb)]
      simp [ih]
    · rw [if_neg (by simpa using hb)]
      rw [ih]
      simp

theorem splitManyAux_runs (d : List Nat) :
    ∀ (l acc : List Nat), (∀ x ∈ acc, d.contains x = false) →
      ∀ r ∈ splitManyAux d acc l,
        r ≠ [] ∧ ∀ x ∈ r.dropLast, d.contains x = false := by
  intro l
  induction l with
  | nil =>
    intro acc hacc r hr
    rw [splitManyAux] at hr
    cases hic : acc.isEmpty with
    | true => rw [if_pos hic] at hr; simp at hr
    | false =>
      rw [if_neg (by simp [hic])] at hr
      have : r = acc := by simpa using hr
      subst this
      constructor
      · intro hnil
        rw [hnil] at hic
        simp at hic
      · intro x hx
        exact hacc x (List.Sublist.mem hx (List.dropLast_sublist r))
  | cons b rest ih =>
    intro acc hacc r hr
    rw [splitManyAux] at hr
    by_cases hb : d.contains b = true
    · rw [if_pos (by simpa using hb)] at hr
      rcases List.mem_cons.mp hr with rfl | hr'
      · refine ⟨by simp, ?_⟩
        intro x hx
        rw [List.dropLast_concat] at hx
        exact hacc x hx
      · exact ih [] (by simp) r hr'
    · rw [if_neg (by simpa using hb)] at hr
      refine ih (acc ++ [b]) ?_ r hr
      intro x hx
      rcases List.mem_append.mp hx with hx' | hx'
      · exact hacc x hx'
      · have : x = b := by simpa using hx'
        subst this
        simpa using hb

theorem splitManyAux_dropLast_delim (d : List Nat) :
    ∀ (l acc : List Nat), ∀ r ∈ (splitManyAux d acc l).dropLast,
      d.contains (r.getLastD 0) = true := by
  intro l
  induction l with
  | nil =>
    intro acc r hr
    rw [splitManyAux] at hr
    cases hic : acc.isEmpty with
    | true => rw [if_pos hic] at hr; simp at hr
    | false => rw [if_neg (by simp [hic])] at hr; simp at hr
  | cons b rest ih =>
    intro acc r hr
    rw [splitManyAux] at hr
    by_cases hb : d.contains b = true
    · rw [if_pos (by simpa using hb)] at hr
      cases haux : splitManyAux d [] rest with
      | nil => rw [haux] at hr; simp at hr
      | cons y ys =>
        rw [haux, List.dropLast_cons₂] at hr
        rcases List.mem_cons.mp hr with rfl | hr'
        · rw [List.getLastD_concat]
          exact hb
        · rw [← haux] at hr'
          exact ih [] r hr'
    · rw [if_neg (by simpa using hb)] at hr
      exact ih (acc ++ [b]) r hr

end Pll

/-- C6: for any input byte stream and non-empty delimiter set, the
tokenizer (`SplitMany::next`, `src/main.rs:301-327`) yields a finite run
sequence whose concatenation is the input; every run is non-empty and
contains no delimiter before its final byte (so a run ends at, and
includes, the first delimiter since the previous run — k consecutive
delimiter bytes give k single-byte runs); every run but the last ends in
a delimiter byte (the last one either does too or, at end of stream, is
the delimiter-free leftover); and an empty remainder yields nothing. -/
theorem tokenizer_runs_spec (d input : List Nat) (_hd : d ≠ []) :
    (Pll.splitMany d input).flatten = input
  ∧ (∀ r ∈ Pll.splitMany d input, r ≠ [] ∧ ∀ x ∈ r.dropLast, d.contains x = false)
  ∧ (∀ r ∈ (Pll.splitMany d input).dropLast, d.contains (r.getLastD 0) = true)
  ∧ (input = [] → Pll.splitMany d input = []) := by
  rw [Pll.splitMany_eq_aux]
  refine ⟨?_, ?_, ?_, ?_⟩
  · rw [Pll.splitManyAux_flatten]
    simp
  · exact Pll.splitManyAux_runs d input [] (by simp)
  · exact Pll.splitManyAux_dropLast_delim d input []
  · intro h
    subst h
    rfl

/-- Witness for C6: delimiter set `{32}` on bytes `[97, 32, 32, 98]`
(two consecutive delimiters). -/
theorem tokenizer_runs_spec_witness :
    ([32] : List Nat) ≠ []
  ∧ (Pll.splitMany [32] [97, 32, 32, 98]).flatten = [97, 32, 32, 98]
  ∧ ([97, 32] : List Nat) ≠ [] := by
  have he : Pll.splitMany [32] [97, 32, 32, 98] = [[97, 32], [32], [98]] := by
    rw [Pll.splitMany_eq_aux]
    rfl
  have h := tokenizer_runs_spec [32] [97, 32, 32, 98] (by decide)
  exact ⟨by decide, h.1, (h.2.1 [97, 32] (by rw [he]; decide)).1⟩

namespace Pll

theorem findIdx?_decomp {α : Type} (p : α → Bool) :
    ∀ (l : List α) (i s : Nat), l.findIdx? p i = some s →
      ∃ pre x post, l = pre ++ x :: post ∧ i + pre.length = s ∧ p x = true ∧
        ∀ y ∈ pre, p y = false := by
  intro l
  induction l with
  | nil => intro i s h; simp [List.findIdx?] at h
  | cons a rest ih =>
    intro i s h
    rw [List.findIdx?_cons] at h
    by_cases hp : p a = true
    · rw [if_pos hp] at h
      simp only [Option.some.injEq] at h
      exact ⟨[], a, rest, by simp, by simpa using h, hp, by simp⟩
    · rw [if_neg hp] at h
      obtain ⟨pre, x, post, hl, hs, hx, hpre⟩ := ih (i + 1) s h
      refine ⟨a :: pre, x, post, by rw [hl, List.cons_append], ?_, hx, ?_⟩
      · simp only [List.length_cons]
        omega
      · intro y hy
        rcases List.mem_cons.mp hy with rfl | hy'
        · simpa using hp
        · exact hpre y hy'

theorem dropWhile_prefix_delims (q : Nat → Bool) :
    ∀ (pre : List Nat) (x : Nat) (post : List Nat),
      (∀ y ∈ pre, q y = true) → q x = false →
      List.dropWhile q (pre ++ x :: post) = x :: post := by
  intro pre
  induction pre with
  | nil => intro x post _ hx; simp [List.dropWhile_cons, hx]
  | cons a as ih =>
    intro x post hpre hx
    rw [List.cons_append, List.dropWhile_cons, if_pos (hpre a (by simp))]
    exact ih x post (fun y hy => hpre y (by simp [hy])) hx

end Pll

/-- The trimming the spec describes, written from its words: remove all
leading delimiter bytes, then all trailing delimiter bytes. Compared
against the source's `clean_arg` below. -/
def trimDelims (delims arg : List Nat) : List Nat :=
  ((arg.dropWhile (fun y => delims.contains y)).reverse.dropWhile
    (fun y => delims.contains y)).reverse

/-- C7: `clean_arg` (`src/main.rs:339-354`) returns the run with all
leading and trailing delimiter bytes removed, and returns no token at all
when the run is entirely delimiters; consequently the byte stream
`"  a \t b\0"` with delimiter set `{space, tab, null}` produces exactly
the tokens `"a"` and `"b"` through the tokenizer-plus-trimming pipeline. -/
theorem clean_arg_trims (delims arg : List Nat) :
    Pll.clean_arg delims arg =
      (if arg.all (fun y => delims.contains y) then none
       else some (trimDelims delims arg))
  ∧ (Pll.splitMany [32, 9, 0] [32, 32, 97, 32, 9, 32, 98, 0]).filterMap
      (Pll.clean_arg [32, 9, 0]) = [[97], [98]] := by
  constructor
  · cases hs : arg.findIdx? (fun y => !(delims.contains y)) with
    | none =>
      have hall : arg.all (fun y => delims.contains y) = true := by
        rw [List.all_eq_true]
        intro y hy
        have := List.findIdx?_eq_none_iff.mp hs y hy
        simpa using this
      simp only [Pll.clean_arg, hs]
      rw [if_pos (by simpa using hall)]
    | some start =>
      obtain ⟨pre, x, post, hl, hsum, hx, hpre⟩ := Pll.findIdx?_decomp _ arg 0 start hs
      rw [Nat.zero_add] at hsum
      have hqx : delims.contains x = false := by simpa using hx
      have hall : arg.all (fun y => delims.contains y) = false := by
        cases hc : arg.all (fun y => delims.contains y) with
        | false => rfl
        | true =>
          have := List.all_eq_true.mp hc x (by rw [hl]; simp)
          rw [hqx] at this
          exact absurd this (by simp)
      have hdropstart : arg.drop start = x :: post := by
        rw [hl, ← hsum, List.drop_left]
      have hdw : List.dropWhile (fun y => delims.contains y) arg = x :: post := by
        rw [hl]
        exact Pll.dropWhile_prefix_delims _ pre x post
          (fun y hy => by have := hpre y hy; simpa using this) hqx
      cases hs2 : ((x :: post).reverse).findIdx? (fun y => !(delims.contains y)) with
      | none =>
        have := List.findIdx?_eq_none_iff.mp hs2 x (by simp)
        rw [hqx] at this
        simp at this
      | some e =>
        obtain ⟨pre2, z, post2, hl2, hsum2, hz, hpre2⟩ :=
          Pll.findIdx?_decomp _ ((x :: post).reverse) 0 e hs2
        rw [Nat.zero_add] at hsum2
        have hqz : delims.contains z = false := by simpa using hz
        simp only [Pll.clean_arg, hs, hdropstart, hs2]
        rw [if_neg (by rw [hall]; simp)]
        congr 1
        have hlen1 : arg.length = start + (post.length + 1) := by
          rw [hl, ← hsum]
          simp
        have hlen2 : post.length + 1 = pre2.length + (post2.length + 1) := by
          have h := congrArg List.length hl2
          simpa using h
        have htd : trimDelims delims arg = (z :: post2).reverse := by
          rw [trimDelims, hdw, hl2,
            Pll.dropWhile_prefix_delims _ pre2 z post2
              (fun y hy => by have := hpre2 y hy; simpa using this) hqz]
        rw [htd, List.drop_take, hdropstart]
        have hx2 : x :: post = (z :: post2).reverse ++ pre2.reverse := by
          have h := congrArg List.reverse hl2
          simpa [List.reverse_append] using h
        rw [hx2]
        have hcount : arg.length - e - start = (z :: post2).reverse.length := by
          simp only [List.length_reverse, List.length_cons]
          omega
        rw [hcount, List.take_left]
  · rw [Pll.splitMany_eq_aux]
    rfl
